import Mathlib

/-!
Verification development for the Slimora batch image compressor
(`src/main_fixed_v2.py`).

The pure core of the program is shallowly embedded here:

* Python strings are modelled as `List Char` (`Str`); `str.lower`,
  `str.endswith`, `str.split(os.sep)` and `os.path.splitext` are translated
  character by character from their CPython semantics.
* Filesystem paths are modelled as lists of path segments (`Path`);
  `os.path.join` of relative components is segment concatenation, and
  `os.path.relpath` (which normalises both of its arguments via `abspath`)
  is modelled on `"."`/empty-segment-normalised segment lists.  Resolution
  of `".."` segments is not modelled: the program only ever feeds `relpath`
  directories that lie inside the chosen root (they come from `os.walk`).
* `ImageProcessor.compress_image`'s quality search is embedded over an
  abstract encoder `encode : Nat → Option Nat` mapping a JPEG quality to
  the encoded size in bytes (`none` models `img.save` raising, which the
  inner `try/except` of the loop swallows).  The Python comparison
  `buffer.tell() / 1024 <= max_kb` is exact for the sizes involved and is
  modelled as `size ≤ maxKB * 1024`.
* The per-file filesystem/decoder effects of `process_images` and
  `ImageWorker.process` are abstracted into a `FileEnv` value per file:
  a raised exception with its message, a `compress_image` failure, or a
  success together with the observed source/output byte sizes.
* The Qt signals emitted by `ImageWorker` are modelled as an explicit
  event trace (`Event`), and the worker's `_is_running` flag as a
  schedule `running : Nat → Bool` giving the value the loop observes
  while handling the file at a given 0-based index.
-/

namespace Slimora

/-- Python strings, as lists of code points. -/
abbrev Str := List Char

/-- A filesystem path, as a list of path segments (segments contain no
separator).  `os.path.join` with relative components is `++`. -/
abbrev Path := List Str

/-- `s.lower()` (the program only feeds it ASCII file names, for which
`Char.toLower` agrees with CPython). -/
def lowerStr (s : Str) : Str := s.map Char.toLower

/-- `s.endswith(suffix)`. -/
def endsWith (s suffix : Str) : Bool :=
  suffix == s.drop (s.length - suffix.length)

/-- `s.split(sep)` for a one-character separator, CPython semantics:
splitting the empty string yields `[""]`. -/
def splitSep : Str → Path
  | [] => [[]]
  | c :: rest =>
    let r := splitSep rest
    if c = '/' then [] :: r else (c :: r.headD []) :: r.tail

/-- `os.sep.join` of path segments. -/
def joinStr : Path → Str
  | [] => []
  | [s] => s
  | s :: rest => s ++ '/' :: joinStr rest

/-- Index of the last occurrence of `c` in `s`, if any
(`s.rfind(c)` with `none` for `-1`). -/
def lastIdx (c : Char) : Str → Option Nat
  | [] => none
  | a :: rest =>
    match lastIdx c rest with
    | some i => some (i + 1)
    | none => if a = c then some 0 else none

/-- `os.path.splitext`: split off the extension at the last dot, provided
the dot lies after the last separator and some non-dot character precedes
it in the base name (so `".bashrc"` has no extension). -/
def splitext (s : Str) : Str × Str :=
  match lastIdx '.' s with
  | none => (s, [])
  | some d =>
    let start := match lastIdx '/' s with
      | some k => k + 1
      | none => 0
    if (List.range' start (d - start)).any (fun i => s.getD i '.' ≠ '.') then
      (s.take d, s.drop d)
    else (s, [])

/-- Output filename generation of `ImageProcessor.process_images`
(lines 156–158): prepend `prefix_`, then force the extension to `.jpg`
unless the original name already ends in `".jpg"` case-insensitively. -/
def folderNewName (pfx filename : Str) : Str :=
  let base := if pfx ≠ [] then pfx ++ '_' :: filename else filename
  if endsWith (lowerStr filename) ".jpg".toList then base
  else (splitext base).1 ++ ".jpg".toList

/-- Output filename generation of `ImageWorker.process` in file mode
(lines 278–281): prepend `prefix_`, then force the extension to `.jpg`
unless the original extension is `.jpg` or `.jpeg` case-insensitively. -/
def fileNewName (pfx filename : Str) : Str :=
  let ext := (splitext filename).2
  let base := if pfx ≠ [] then pfx ++ '_' :: filename else filename
  if lowerStr ext = ".jpg".toList ∨ lowerStr ext = ".jpeg".toList then base
  else (splitext base).1 ++ ".jpg".toList

/-- Relative segments of `path` with respect to `start` (both already
normalised): strip the longest common prefix, then one `".."` per
remaining `start` segment. -/
def relSegments : Path → Path → Path
  | p, [] => p
  | [], s => s.map (fun _ => "..".toList)
  | a :: p, b :: s =>
    if a = b then relSegments p s
    else List.replicate (s.length + 1) "..".toList ++ a :: p

/-- Path normalisation as performed by `os.path.abspath`/`normpath` on the
paths this program produces: drop `"."` and empty segments (`".."`
resolution is not needed for directories produced by `os.walk` under the
chosen root, and is not modelled). -/
def normSegs (p : Path) : Path :=
  p.filter (fun s => decide (s ≠ ".".toList) && decide (s ≠ []))

/-- `os.path.relpath(path, start)`: normalise both arguments, strip the
common prefix, and return `"."` when the result is empty. -/
def relpathStr (path start : Path) : Str :=
  let s := relSegments (normSegs path) (normSegs start)
  if s = [] then ".".toList else joinStr s

/-- `rel_path.split(os.sep)[0] if rel_path else ""`
(`ImageProcessor.process_images`, line 145). -/
def level1Folder (rel : Str) : Str :=
  if rel = [] then [] else (splitSep rel).headD []

/-- One source file: the segments of its containing directory and its
base name. -/
structure SrcFile where
  dir : Path
  name : Str
deriving DecidableEq, Repr

/-- The three operating modes (`folder_mode` values `"multiple"`,
`"single"`, `"file"`). -/
inductive Mode where
  | multiple
  | single
  | file
deriving DecidableEq, Repr

/-- The `level1_folder` value computed for a source file in multiple-folder
mode (`ImageProcessor.process_images`, lines 140–145). -/
def multipleLevel1 (inputDir : Path) (f : SrcFile) : Str :=
  level1Folder (relpathStr f.dir inputDir)

/-- Destination resolution of `ImageProcessor.process_images`
(lines 140–163) for the two folder modes: returns the new file name and
the output directory (`output_dir`), mirroring the `join`/`relpath`
structure of the source. -/
def folderResolve (mode : Mode) (inputDir : Path) (f : SrcFile) : Str × Path :=
  match mode with
  | .multiple =>
    let level1 := multipleLevel1 inputDir f
    let reducedBase := inputDir ++ [level1, "reduced".toList]
    let relOut := relpathStr f.dir (inputDir ++ [level1])
    (folderNewName level1 f.name, reducedBase ++ splitSep relOut)
  | _ =>
    let pfx := (normSegs inputDir).getLastD []
    let reducedBase := inputDir ++ ["reduced".toList]
    (folderNewName pfx f.name, reducedBase ++ splitSep (relpathStr f.dir inputDir))

/-! ## Encoder (`ImageProcessor.compress_image`) -/

/-- The quality ladder `range(quality, 30, -5)`: descending by 5 while the
value stays strictly above 30.  The fuel argument (`q` itself suffices)
only bounds the recursion depth. -/
def ladderAux : Nat → Nat → List Nat
  | 0, _ => []
  | fuel + 1, q => if 30 < q then q :: ladderAux fuel (q - 5) else []

/-- The list of quality values tried by the loop
`for q in range(quality, 30, -5)` (line 216). -/
def qualityLadder (q0 : Nat) : List Nat := ladderAux q0 q0

/-- The in-memory quality search loop (lines 216–231) over an abstract
encoder `encode : quality ↦ size in bytes` (`none` models `img.save`
raising, which the inner `except` swallows).  Returns the qualities at
which an encode was attempted, in order, and the persisted
`(quality, size)` of the first attempt whose size fits the budget. -/
def searchSteps (encode : Nat → Option Nat) (budget : Nat) :
    List Nat → List Nat × Option (Nat × Nat)
  | [] => ([], none)
  | q :: rest =>
    match encode q with
    | none => ((searchSteps encode budget rest).1.cons q, (searchSteps encode budget rest).2)
    | some sz =>
      if sz ≤ budget then ([q], some (q, sz))
      else ((searchSteps encode budget rest).1.cons q, (searchSteps encode budget rest).2)

/-- `ImageProcessor.compress_image` after decode/resize (lines 212–237):
run the quality search with budget `max_kb` kilobytes (the Python
comparison `buffer.tell() / 1024 <= max_kb` is exact and equals
`size ≤ maxKB * 1024`); if no rung fits, encode once more at quality 30
and persist that result regardless of its size.  Returns the list of
qualities at which an encode was performed and the persisted
`(quality, size)` (`none` when the fallback save raises). -/
def compress_image (encode : Nat → Option Nat) (maxKB q0 : Nat) :
    List Nat × Option (Nat × Nat) :=
  match (searchSteps encode (maxKB * 1024) (qualityLadder q0)).2 with
  | some qs => ((searchSteps encode (maxKB * 1024) (qualityLadder q0)).1, some qs)
  | none =>
    ((searchSteps encode (maxKB * 1024) (qualityLadder q0)).1 ++ [30],
      (encode 30).map (fun sz => (30, sz)))

/-- The resize step (lines 207–210): when the width exceeds `max_width`,
the code computes `int(img.height * (max_width / img.width))`, i.e. the
truncation of `h·maxW/w`; this is `h * maxW / w` in exact arithmetic
(at every input where the floating-point products are exact, in
particular at the counterexample below, this is the height the code
produces).  No resize otherwise. -/
def resizeDims (w h maxW : Nat) : Nat × Nat :=
  if maxW < w then (maxW, h * maxW / w) else (w, h)

/-- Modelled from the words of the specification, for comparison with
`resizeDims`: height is `round(originalHeight × maxWidth / originalWidth)`
(spec §4.1, Step 2). -/
def resizeDimsSpecRound (w h maxW : Nat) : Nat × Nat :=
  if maxW < w then (maxW, (round ((h * maxW : ℚ) / w)).toNat) else (w, h)

/-! ## Batch processing (`ImageProcessor.process_images`,
`ImageWorker.process`) -/

/-- The externally observable fate of the filesystem/decoder calls made
while handling one file: some call before/around the compression raised
(`os.makedirs`, `os.path.getsize`, …) with message `str(e)`;
`compress_image` returned `False`; or everything succeeded with the given
source and output byte sizes. -/
inductive FileEnv where
  | raise (msg : Str)
  | fail
  | ok (srcSize outSize : Nat)
deriving DecidableEq, Repr

/-- One entry of the `results` list: the success dictionary (lines
173–180) or an error dictionary (lines 185–187 and 190–192). -/
inductive Outcome where
  | success (original new : Str) (origSize newSize : Nat) (reduction : ℚ)
      (outPath : Str)
  | error (msg : Str)
deriving DecidableEq, Repr

/-- A `progress` signal payload `(current, total, message)`. -/
structure ProgressEvent where
  current : Nat
  total : Nat
  message : Str
deriving DecidableEq, Repr

/-- `f"Error processing {filename}: {msg}"`. -/
def errMsgOf (filename msg : Str) : Str :=
  "Error processing ".toList ++ filename ++ ": ".toList ++ msg

/-- `f"Failed to process {filename}"`. -/
def failMsgOf (filename : Str) : Str := "Failed to process ".toList ++ filename

/-- `f"{filename} → {new_filename}"`. -/
def progMsgOf (orig new : Str) : Str := orig ++ " → ".toList ++ new

/-- The outcome recorded for one file by `process_images` (folder modes),
as a function of that file and its environment alone. -/
def outcomeOf (mode : Mode) (inputDir : Path) : SrcFile × FileEnv → Outcome
  | (f, .raise msg) => .error (errMsgOf f.name msg)
  | (f, .fail) => .error (failMsgOf f.name)
  | (f, .ok s o) =>
    .success f.name (folderResolve mode inputDir f).1 s o
      (((s : ℚ) - (o : ℚ)) / (s : ℚ) * 100)
      (joinStr ((folderResolve mode inputDir f).2 ++ [(folderResolve mode inputDir f).1]))

/-- The loop of `ImageProcessor.process_images` (lines 135–195), carrying
the 0-based index of the current file: produces the `results` list and
the stream of `progress_callback` invocations.  The callback is invoked
only in the success branch (lines 182–183). -/
def processImagesAux (mode : Mode) (inputDir : Path) (total : Nat) :
    Nat → List (SrcFile × FileEnv) → List Outcome × List ProgressEvent
  | _, [] => ([], [])
  | idx, fe :: rest =>
    match fe with
    | (f, .ok s o) =>
      ((processImagesAux mode inputDir total (idx + 1) rest).1.cons
          (outcomeOf mode inputDir (f, .ok s o)),
        (processImagesAux mode inputDir total (idx + 1) rest).2.cons
          ⟨idx + 1, total, progMsgOf f.name (folderResolve mode inputDir f).1⟩)
    | fe =>
      ((processImagesAux mode inputDir total (idx + 1) rest).1.cons
          (outcomeOf mode inputDir fe),
        (processImagesAux mode inputDir total (idx + 1) rest).2)

/-- `ImageProcessor.process_images(files, input_dir, max_kb, quality,
folder_mode, progress_callback)`: results and progress-callback stream. -/
def processImages (mode : Mode) (inputDir : Path)
    (files : List (SrcFile × FileEnv)) : List Outcome × List ProgressEvent :=
  processImagesAux mode inputDir files.length 0 files

/-- The outcome recorded for one file by the file-mode loop of
`ImageWorker.process` (lines 264–312). -/
def fileOutcomeOf (pfx : Str) : SrcFile × FileEnv → Outcome
  | (f, .raise msg) => .error (errMsgOf f.name msg)
  | (f, .fail) => .error (failMsgOf f.name)
  | (f, .ok s o) =>
    .success f.name (fileNewName pfx f.name) s o
      (((s : ℚ) - (o : ℚ)) / (s : ℚ) * 100)
      (joinStr (f.dir ++ ["reduced".toList, fileNewName pfx f.name]))

/-- The file-mode loop of `ImageWorker.process`: `running idx` is the value
of `self._is_running` observed by the `if not self._is_running: break`
check at the top of the iteration for the file at 0-based index `idx`;
`progress.emit` happens only in the success branch (line 302). -/
def workerFileAux (pfx : Str) (running : Nat → Bool) (total : Nat) :
    Nat → List (SrcFile × FileEnv) → List Outcome × List ProgressEvent
  | _, [] => ([], [])
  | idx, fe :: rest =>
    if running idx then
      match fe with
      | (f, .ok s o) =>
        ((workerFileAux pfx running total (idx + 1) rest).1.cons
            (fileOutcomeOf pfx (f, .ok s o)),
          (workerFileAux pfx running total (idx + 1) rest).2.cons
            ⟨idx + 1, total, progMsgOf f.name (fileNewName pfx f.name)⟩)
      | fe =>
        ((workerFileAux pfx running total (idx + 1) rest).1.cons
            (fileOutcomeOf pfx fe),
          (workerFileAux pfx running total (idx + 1) rest).2)
    else ([], [])

/-- One emission of `ImageWorker`: a `progress` signal, a `result` signal
(carrying the outcome it reformats), or the `finished` signal. -/
inductive Event where
  | progress (e : ProgressEvent)
  | outcome (o : Outcome)
  | finished
deriving DecidableEq, Repr

/-- Is this a `progress` emission? -/
def Event.isProgress : Event → Bool
  | .progress _ => true
  | _ => false

/-- Is this a `result` emission? -/
def Event.isOutcome : Event → Bool
  | .outcome _ => true
  | _ => false

/-- The outcomes carried by the `result` emissions of a trace, in order. -/
def resultEvents (tr : List Event) : List Outcome :=
  tr.filterMap (fun e => match e with | .outcome o => some o | _ => none)

/-- The payloads of the `progress` emissions of a trace, in order. -/
def progressEvents (tr : List Event) : List ProgressEvent :=
  tr.filterMap (fun e => match e with | .progress p => some p | _ => none)

/-- The full emission trace of `ImageWorker.process` (lines 258–336).
In file mode the loop emits progress signals as it goes and collects the
results; in the folder modes `process_images` runs with
`_progress_callback`, which drops the emission when `self._is_running`
has been cleared (lines 338–340) — for the file at 0-based index `idx`
(current `idx + 1`) the flag value observed is `running idx`.  In every
mode the `result` signals for all outcomes are emitted only after the
loop (lines 323–331), followed by `finished`. -/
def workerTrace (mode : Mode) (running : Nat → Bool) (pfx : Str)
    (inputDir : Path) (files : List (SrcFile × FileEnv)) : List Event :=
  match mode with
  | .file =>
    (workerFileAux pfx running files.length 0 files).2.map .progress
      ++ ((workerFileAux pfx running files.length 0 files).1.map .outcome
        ++ [.finished])
  | _ =>
    ((processImages mode inputDir files).2.filter
        (fun e => running (e.current - 1))).map .progress
      ++ ((processImages mode inputDir files).1.map .outcome ++ [.finished])

/-! ## Lemmas about the quality ladder and the search loop -/

lemma ladderAux_mem : ∀ (fuel q0 : Nat), q0 ≤ fuel + 30 →
    ∀ q, q ∈ ladderAux fuel q0 ↔ 30 < q ∧ q ≤ q0 ∧ 5 ∣ (q0 - q)
  | 0, q0, h, q => by
    simp only [ladderAux, List.not_mem_nil, false_iff]
    omega
  | fuel + 1, q0, h, q => by
    simp only [ladderAux]
    split
    · rw [List.mem_cons, ladderAux_mem fuel (q0 - 5) (by omega) q]
      omega
    · simp only [List.not_mem_nil, false_iff]
      omega

lemma qualityLadder_mem (q0 q : Nat) :
    q ∈ qualityLadder q0 ↔ 30 < q ∧ q ≤ q0 ∧ 5 ∣ (q0 - q) :=
  ladderAux_mem q0 q0 (by omega) q

lemma ladderAux_sorted : ∀ (fuel q0 : Nat), q0 ≤ fuel + 30 →
    (ladderAux fuel q0).Pairwise (fun a b => b < a)
  | 0, _, _ => by simp [ladderAux]
  | fuel + 1, q0, h => by
    simp only [ladderAux]
    split
    · refine List.Pairwise.cons ?_ (ladderAux_sorted fuel (q0 - 5) (by omega))
      intro b hb
      have := (ladderAux_mem fuel (q0 - 5) (by omega) b).1 hb
      omega
    · simp

lemma qualityLadder_sorted (q0 : Nat) :
    (qualityLadder q0).Pairwise (fun a b => b < a) :=
  ladderAux_sorted q0 q0 (by omega)

lemma qualityLadder_head (q0 : Nat) :
    (qualityLadder q0).head? = if 30 < q0 then some q0 else none := by
  unfold qualityLadder
  cases q0 with
  | zero => simp [ladderAux]
  | succ n =>
    simp only [ladderAux]
    split <;> simp_all

lemma searchSteps_eq_some {encode : Nat → Option Nat} {budget : Nat} :
    ∀ {L : List Nat} {q sz}, (searchSteps encode budget L).2 = some (q, sz) →
      ∃ L1 L2, L = L1 ++ q :: L2 ∧ encode q = some sz ∧ sz ≤ budget ∧
        ∀ q' ∈ L1, ∀ sz', encode q' = some sz' → ¬ sz' ≤ budget
  | [], q, sz => by simp [searchSteps]
  | a :: rest, q, sz => by
    simp only [searchSteps]
    cases ha : encode a with
    | none =>
      intro h
      obtain ⟨L1, L2, hL, h1, h2, h3⟩ := searchSteps_eq_some (L := rest) h
      refine ⟨a :: L1, L2, by rw [hL, List.cons_append], h1, h2, ?_⟩
      intro q' hq' sz' hsz'
      rcases List.mem_cons.1 hq' with rfl | hq'
      · rw [ha] at hsz'; cases hsz'
      · exact h3 q' hq' sz' hsz'
    | some sz0 =>
      by_cases hb : sz0 ≤ budget
      · simp only [if_pos hb]
        intro h
        obtain ⟨rfl, rfl⟩ : a = q ∧ sz0 = sz := by
          simpa using h
        exact ⟨[], rest, rfl, ha, hb, by simp⟩
      · simp only [if_neg hb]
        intro h
        obtain ⟨L1, L2, hL, h1, h2, h3⟩ := searchSteps_eq_some (L := rest) h
        refine ⟨a :: L1, L2, by rw [hL, List.cons_append], h1, h2, ?_⟩
        intro q' hq' sz' hsz'
        rcases List.mem_cons.1 hq' with rfl | hq'
        · rw [ha] at hsz'
          cases hsz'
          exact hb
        · exact h3 q' hq' sz' hsz'

lemma searchSteps_fst_subset {encode : Nat → Option Nat} {budget : Nat} :
    ∀ {L : List Nat} {q}, q ∈ (searchSteps encode budget L).1 → q ∈ L
  | [], q => by simp [searchSteps]
  | a :: rest, q => by
    simp only [searchSteps]
    cases ha : encode a with
    | none =>
      intro h
      rcases List.mem_cons.1 h with rfl | h
      · exact List.mem_cons_self _ _
      · exact List.mem_cons_of_mem _ (searchSteps_fst_subset h)
    | some sz0 =>
      by_cases hb : sz0 ≤ budget
      · simp only [if_pos hb]
        intro h
        rcases List.mem_cons.1 h with rfl | h
        · exact List.mem_cons_self _ _
        · simp at h
      · simp only [if_neg hb]
        intro h
        rcases List.mem_cons.1 h with rfl | h
        · exact List.mem_cons_self _ _
        · exact List.mem_cons_of_mem _ (searchSteps_fst_subset h)

/-! ## Claim C1 -/

/-- Claim C1 is false as stated: with `startQuality = 34` (allowed, since
the quality slider ranges over `[1, 100]`) the loop
`range(34, 30, -5)` tests quality 34, which is below 35, and persists the
result encoded at quality 34 when it fits the budget. -/
theorem C1_counterexample :
    (compress_image (fun _ => some 0) 150 34).1 = [34] ∧
    (compress_image (fun _ => some 0) 150 34).2 = some (34, 0) ∧
    ¬ (35 ≤ 34) := by
  decide

/-- Claim C1, amended: the quality search starts at `startQuality` and
decreases by 5 each step, but its lower cutoff is `> 30` (not `≥ 35`):
the ladder contains exactly the qualities `q` with `30 < q ≤ startQuality`
and `q ≡ startQuality (mod 5)` — when `startQuality` is not a multiple
of 5 the last rung lies in `31..34`.  The loop stops at the first rung
whose encoded size fits the budget and persists that encoding, and every
higher rung either failed to encode or exceeded the budget (first hit =
highest fitting rung). -/
theorem C1_quality_search_amended (encode : Nat → Option Nat) (maxKB q0 : Nat) :
    (∀ q, q ∈ qualityLadder q0 ↔ 30 < q ∧ q ≤ q0 ∧ 5 ∣ (q0 - q)) ∧
    ((qualityLadder q0).head? = if 30 < q0 then some q0 else none) ∧
    (∀ q sz, (searchSteps encode (maxKB * 1024) (qualityLadder q0)).2 = some (q, sz) →
      q ∈ qualityLadder q0 ∧ encode q = some sz ∧ sz ≤ maxKB * 1024 ∧
      (compress_image encode maxKB q0).2 = some (q, sz) ∧
      (∀ q', q' ∈ qualityLadder q0 → q < q' →
        ∀ sz', encode q' = some sz' → ¬ sz' ≤ maxKB * 1024)) := by
  refine ⟨qualityLadder_mem q0, qualityLadder_head q0, ?_⟩
  intro q sz h
  obtain ⟨L1, L2, hL, h1, h2, h3⟩ := searchSteps_eq_some h
  have hmem : q ∈ qualityLadder q0 := by
    rw [hL]
    exact List.mem_append_right _ (List.mem_cons_self _ _)
  refine ⟨hmem, h1, h2, by simp only [compress_image, h], ?_⟩
  intro q' hq' hlt sz' he'
  have hsorted := qualityLadder_sorted q0
  rw [hL, List.pairwise_append] at hsorted
  rw [hL] at hq'
  rcases List.mem_append.1 hq' with hq1 | hq2
  · exact h3 q' hq1 sz' he'
  · rcases List.mem_cons.1 hq2 with rfl | hq2
    · omega
    · have : q' < q := (List.pairwise_cons.1 hsorted.2.1).1 q' hq2
      omega

/-- Witness for `C1_quality_search_amended`: at `startQuality = 85`,
`maxSizeKB = 150` and an encoder that always produces 1000 bytes, the
search persists `(85, 1000)`. -/
theorem C1_witness :
    (compress_image (fun _ => some 1000) 150 85).2 = some (85, 1000) :=
  (((C1_quality_search_amended (fun _ => some 1000) 150 85).2.2 85 1000
    (by decide)).2.2.2).1

/-! ## Claim C4 -/

/-- Claim C4: when no rung of the descending ladder met the budget, the
code performs exactly one further encode at quality 30 (the trace of
encode calls counts quality 30 exactly once, and never when the search
succeeded), persists that result for any size whatsoever — no size
condition appears in the fallback branch — and quality 30 is never a rung
of the search ladder itself. -/
theorem C4_fallback_quality30 (encode : Nat → Option Nat) (maxKB q0 : Nat) :
    ((searchSteps encode (maxKB * 1024) (qualityLadder q0)).2 = none →
      (compress_image encode maxKB q0).1
        = (searchSteps encode (maxKB * 1024) (qualityLadder q0)).1 ++ [30] ∧
      ∀ sz, encode 30 = some sz →
        (compress_image encode maxKB q0).2 = some (30, sz)) ∧
    ((compress_image encode maxKB q0).1.count 30
      = if (searchSteps encode (maxKB * 1024) (qualityLadder q0)).2 = none
        then 1 else 0) ∧
    (∀ q1, 30 ∉ qualityLadder q1) := by
  have hnotin : (30 : Nat) ∉ (searchSteps encode (maxKB * 1024) (qualityLadder q0)).1 := by
    intro hmem
    have := (qualityLadder_mem q0 30).1 (searchSteps_fst_subset hmem)
    omega
  refine ⟨?_, ?_, ?_⟩
  · intro hnone
    refine ⟨by simp only [compress_image, hnone], ?_⟩
    intro sz hsz
    simp only [compress_image, hnone, hsz, Option.map_some']
  · have hzero : (searchSteps encode (maxKB * 1024) (qualityLadder q0)).1.count 30 = 0 :=
      List.count_eq_zero.2 hnotin
    cases hsome : (searchSteps encode (maxKB * 1024) (qualityLadder q0)).2 with
    | none =>
      simp [compress_image, hsome, List.count_append, hzero]
    | some qs =>
      simp [compress_image, hsome, hzero]
  · intro q1 hmem
    have := (qualityLadder_mem q1 30).1 hmem
    omega

/-- Witness for `C4_fallback_quality30`: with `maxSizeKB = 150`,
`startQuality = 45` and an encoder that always produces 10⁹ bytes, no
ladder rung fits, and the fallback persists `(30, 10⁹)` although 10⁹
bytes exceed the 150·1024-byte budget. -/
theorem C4_witness :
    ¬ ((1000000000 : Nat) ≤ 150 * 1024) ∧
    (compress_image (fun _ => some 1000000000) 150 45).2 = some (30, 1000000000) :=
  ⟨by decide,
    ((C4_fallback_quality30 (fun _ => some 1000000000) 150 45).1
      (by decide)).2 1000000000 rfl⟩

/-! ## Claim C6 -/

/-- Claim C6 is false as stated: for a 2048-wide, 1023-high image with
`maxWidth = 1024` the code computes `int(1023 * (1024 / 2048))
= int(511.5) = 511` (all the floating-point values involved are exact),
while the claimed `round(1023 × 1024 / 2048) = round(511.5) = 512`. -/
theorem C6_counterexample :
    resizeDims 2048 1023 1024 = (1024, 511) ∧
    resizeDimsSpecRound 2048 1023 1024 = (1024, 512) ∧
    resizeDims 2048 1023 1024 ≠ resizeDimsSpecRound 2048 1023 1024 := by
  have hr : round ((1023 * 1024 : ℚ) / 2048) = 512 := by
    rw [show ((1023 * 1024 : ℚ) / 2048) = 1023 / 2 by norm_num, round_eq,
      show ((1023 : ℚ) / 2 + 1 / 2) = (512 : ℚ) by norm_num,
      show (512 : ℚ) = ((512 : ℤ) : ℚ) by norm_num, Int.floor_intCast]
  have h2 : resizeDimsSpecRound 2048 1023 1024 = (1024, 512) := by
    simp [resizeDimsSpecRound, hr]
  refine ⟨by decide, h2, ?_⟩
  rw [show resizeDims 2048 1023 1024 = (1024, 511) by decide, h2]
  decide

/-- Claim C6, amended: for a width above `maxWidth` the code resizes to
exactly `maxWidth` wide and the new height is the *truncation*
`⌊originalHeight × maxWidth / originalWidth⌋` (Python `int()` on the
floating-point product), not the rounding; widths at or below `maxWidth`
are never resized. -/
theorem C6_resize_truncates (w h maxW : Nat) :
    (maxW < w →
      (resizeDims w h maxW).1 = maxW ∧
      (resizeDims w h maxW).2 * w ≤ h * maxW ∧
      h * maxW < ((resizeDims w h maxW).2 + 1) * w) ∧
    (w ≤ maxW → resizeDims w h maxW = (w, h)) := by
  constructor
  · intro hlt
    have hres : resizeDims w h maxW = (maxW, h * maxW / w) := by
      simp [resizeDims, hlt]
    rw [hres]
    refine ⟨rfl, Nat.div_mul_le_self _ _, ?_⟩
    exact (Nat.div_lt_iff_lt_mul (by omega)).1 (Nat.lt_succ_self _)
  · intro hle
    simp [resizeDims, Nat.not_lt.2 hle]

/-- Witness for `C6_resize_truncates` at the counterexample input: the
resized height 511 satisfies the floor bounds for 1023·1024/2048. -/
theorem C6_witness :
    (resizeDims 2048 1023 1024).1 = 1024 ∧
    (resizeDims 2048 1023 1024).2 * 2048 ≤ 1023 * 1024 ∧
    1023 * 1024 < ((resizeDims 2048 1023 1024).2 + 1) * 2048 :=
  (C6_resize_truncates 2048 1023 1024).1 (by decide)

/-! ## Claim C5 -/

lemma relSegments_self : ∀ p : Path, relSegments p p = []
  | [] => rfl
  | a :: p => by simp [relSegments, relSegments_self p]

/-- Claim C5 is false as stated: for a file sitting directly in
`inputRoot` (here `/proj/x.png` with `inputRoot = /proj`),
`os.path.relpath` returns `"."`, so the derived `level1_folder` is `"."`
— a non-empty string — and accordingly the output filename gets the
prefix `"._"` and the destination root becomes `/proj/./reduced`. -/
theorem C5_counterexample :
    multipleLevel1 ["proj".toList] ⟨["proj".toList], "x.png".toList⟩ = ".".toList ∧
    ".".toList ≠ ([] : Str) ∧
    folderResolve .multiple ["proj".toList] ⟨["proj".toList], "x.png".toList⟩
      = ("._x.jpg".toList,
        ["proj".toList, ".".toList, "reduced".toList, ".".toList]) := by
  decide

/-- Claim C5, amended: for every source file whose containing directory is
`inputRoot` itself, the derived `level1` segment is the one-character
string `"."` (the value `os.path.relpath` returns for the root itself),
not the empty string; in particular it is non-empty, so the `"."` prefix
is prepended to the filename and interposed in the destination root. -/
theorem C5_level1_is_dot (root : Path) (name : Str) :
    multipleLevel1 root ⟨root, name⟩ = ".".toList ∧
    multipleLevel1 root ⟨root, name⟩ ≠ [] := by
  have h1 : relpathStr root root = ".".toList := by
    simp [relpathStr, relSegments_self]
  have h2 : multipleLevel1 root ⟨root, name⟩ = ".".toList := by
    unfold multipleLevel1
    rw [show (SrcFile.mk root name).dir = root from rfl, h1]
    decide
  exact ⟨h2, by rw [h2]; decide⟩

/-! ## Claim C2 -/

lemma splitext_fst_append_snd (s : Str) : (splitext s).1 ++ (splitext s).2 = s := by
  unfold splitext
  cases hc : lastIdx '.' s with
  | none => simp
  | some d =>
    simp only
    split
    · exact List.take_append_drop d s
    · simp

lemma lowerStr_append (a b : Str) : lowerStr (a ++ b) = lowerStr a ++ lowerStr b :=
  List.map_append _ a b

lemma endsWith_iff {s t : Str} : endsWith s t = true ↔ t <:+ s := by
  unfold endsWith
  rw [beq_iff_eq]
  constructor
  · intro h
    rw [h]
    exact List.drop_suffix _ _
  · rintro ⟨p, rfl⟩
    rw [List.length_append, Nat.add_sub_cancel, List.drop_left]

/-- Transport a case-insensitive suffix of the original filename to the
prefixed variant `prefix + "_" + filename` (or `filename` itself). -/
lemma suffix_lower_base (pfx filename t : Str) (h : t <:+ lowerStr filename) :
    t <:+ lowerStr (if pfx ≠ [] then pfx ++ '_' :: filename else filename) := by
  split
  · rw [lowerStr_append]
    refine h.trans (List.IsSuffix.trans ?_ (List.suffix_append _ _))
    exact List.suffix_cons (Char.toLower '_') (lowerStr filename)
  · exact h

/-- Claim C2 is false as stated: in SingleFile mode a source named
`x.jpeg` (extension `.jpeg`, one of the admitted extensions) keeps its
name unchanged, and `"x.jpeg"` does not end in `".jpg"`, even
case-insensitively. -/
theorem C2_counterexample :
    fileNewName [] "x.jpeg".toList = "x.jpeg".toList ∧
    endsWith (lowerStr (fileNewName [] "x.jpeg".toList)) ".jpg".toList = false := by
  decide

/-- Claim C2, amended: in the MultipleFolder/SingleFolder modes every
output filename ends in `".jpg"` case-insensitively (for *any* source
name); in SingleFile mode a source whose extension is `.jpg`/`.jpeg` in
any letter case keeps its extension, so the output filename ends in
`".jpg"` or `".jpeg"` case-insensitively. -/
theorem C2_extension_amended (pfx filename : Str) :
    endsWith (lowerStr (folderNewName pfx filename)) ".jpg".toList = true ∧
    (endsWith (lowerStr (fileNewName pfx filename)) ".jpg".toList = true ∨
      endsWith (lowerStr (fileNewName pfx filename)) ".jpeg".toList = true) := by
  have hjpg : lowerStr ".jpg".toList = ".jpg".toList := by decide
  constructor
  · unfold folderNewName
    by_cases hc : endsWith (lowerStr filename) ".jpg".toList
    · rw [if_pos hc]
      exact endsWith_iff.2 (suffix_lower_base pfx filename _ (endsWith_iff.1 hc))
    · rw [if_neg hc]
      refine endsWith_iff.2 ?_
      rw [lowerStr_append, hjpg]
      exact List.suffix_append _ _
  · unfold fileNewName
    by_cases hc : lowerStr (splitext filename).2 = ".jpg".toList ∨
        lowerStr (splitext filename).2 = ".jpeg".toList
    · rw [if_pos hc]
      have hsuf : (splitext filename).2 <:+ filename :=
        ⟨(splitext filename).1, splitext_fst_append_snd filename⟩
      have hlow : lowerStr (splitext filename).2 <:+ lowerStr filename :=
        List.IsSuffix.map Char.toLower hsuf
      rcases hc with hc | hc
      · exact Or.inl (endsWith_iff.2
          (suffix_lower_base pfx filename _ (hc ▸ hlow)))
      · exact Or.inr (endsWith_iff.2
          (suffix_lower_base pfx filename _ (hc ▸ hlow)))
    · rw [if_neg hc]
      refine Or.inl (endsWith_iff.2 ?_)
      rw [lowerStr_append, hjpg]
      exact List.suffix_append _ _

/-! ## Lemmas about the batch loops and the worker trace -/

lemma processImagesAux_fst (mode : Mode) (d : Path) (t : Nat) :
    ∀ (idx : Nat) (l : List (SrcFile × FileEnv)),
      (processImagesAux mode d t idx l).1 = l.map (outcomeOf mode d)
  | _, [] => rfl
  | idx, (f, env) :: rest => by
    cases env <;>
      simp [processImagesAux, processImagesAux_fst mode d t (idx + 1) rest, outcomeOf]

lemma processImagesAux_snd (mode : Mode) (d : Path) (t : Nat) :
    ∀ (idx : Nat) (l : List (SrcFile × FileEnv)),
      (processImagesAux mode d t idx l).2
        = (List.enumFrom idx l).filterMap (fun p =>
            match p.2.2 with
            | .ok _ _ => some ⟨p.1 + 1, t,
                progMsgOf p.2.1.name (folderResolve mode d p.2.1).1⟩
            | _ => none)
  | _, [] => rfl
  | idx, (f, env) :: rest => by
    cases env <;>
      simp [processImagesAux, processImagesAux_snd mode d t (idx + 1) rest,
        List.enumFrom_cons, List.filterMap_cons]

lemma processImagesAux_current_bounds (mode : Mode) (d : Path) (t : Nat) :
    ∀ (idx : Nat) (l : List (SrcFile × FileEnv)),
      ∀ e ∈ (processImagesAux mode d t idx l).2,
        idx + 1 ≤ e.current ∧ e.current ≤ idx + l.length ∧ e.total = t
  | _, [] => by simp [processImagesAux]
  | idx, (f, env) :: rest => by
    intro e he
    cases env with
    | ok s o =>
      rcases List.mem_cons.1 (by simpa [processImagesAux] using he) with rfl | he'
      · refine ⟨Nat.le_refl _, ?_, rfl⟩
        show idx + 1 ≤ idx + (rest.length + 1)
        omega
      · have := processImagesAux_current_bounds mode d t (idx + 1) rest e he'
        refine ⟨by omega, ?_, this.2.2⟩
        have h2 := this.2.1
        simp only [List.length_cons]
        omega
    | raise msg =>
      have := processImagesAux_current_bounds mode d t (idx + 1) rest e
        (by simpa [processImagesAux] using he)
      refine ⟨by omega, ?_, this.2.2⟩
      have h2 := this.2.1
      simp only [List.length_cons]
      omega
    | fail =>
      have := processImagesAux_current_bounds mode d t (idx + 1) rest e
        (by simpa [processImagesAux] using he)
      refine ⟨by omega, ?_, this.2.2⟩
      have h2 := this.2.1
      simp only [List.length_cons]
      omega

lemma processImagesAux_pairwise (mode : Mode) (d : Path) (t : Nat) :
    ∀ (idx : Nat) (l : List (SrcFile × FileEnv)),
      (processImagesAux mode d t idx l).2.Pairwise (fun a b => a.current < b.current)
  | _, [] => by simp [processImagesAux]
  | idx, (f, env) :: rest => by
    have IH := processImagesAux_pairwise mode d t (idx + 1) rest
    cases env with
    | raise msg => simpa [processImagesAux] using IH
    | fail => simpa [processImagesAux] using IH
    | ok s o =>
      simp only [processImagesAux]
      refine List.Pairwise.cons ?_ IH
      intro e he
      have := processImagesAux_current_bounds mode d t (idx + 1) rest e he
      show idx + 1 < e.current
      omega

lemma workerFileAux_cutoff (pfx : Str) (t k : Nat) :
    ∀ (idx : Nat) (l : List (SrcFile × FileEnv)),
      (workerFileAux pfx (fun i => decide (i < k)) t idx l).1
        = (l.take (k - idx)).map (fileOutcomeOf pfx)
  | _, [] => by simp [workerFileAux]
  | idx, (f, env) :: rest => by
    by_cases hik : idx < k
    · have htake : k - idx = (k - (idx + 1)) + 1 := by omega
      cases env <;>
        simp [workerFileAux, hik, workerFileAux_cutoff pfx t k (idx + 1) rest,
          htake, List.take_succ_cons, fileOutcomeOf]
    · have hz : k - idx = 0 := by omega
      cases env <;> simp [workerFileAux, hik, hz]

lemma workerFileAux_fst_takeWhile (pfx : Str) (running : Nat → Bool) (t : Nat) :
    ∀ (idx : Nat) (l : List (SrcFile × FileEnv)),
      (workerFileAux pfx running t idx l).1
        = ((List.enumFrom idx l).takeWhile (fun p => running p.1)).map
            (fun p => fileOutcomeOf pfx p.2)
  | _, [] => rfl
  | idx, (f, env) :: rest => by
    cases hr : running idx with
    | false =>
      cases env <;>
        simp [workerFileAux, hr, List.enumFrom_cons, List.takeWhile_cons]
    | true =>
      cases env <;>
        simp [workerFileAux, hr, List.enumFrom_cons, List.takeWhile_cons,
          workerFileAux_fst_takeWhile pfx running t (idx + 1) rest, fileOutcomeOf]

lemma workerFileAux_snd_takeWhile (pfx : Str) (running : Nat → Bool) (t : Nat) :
    ∀ (idx : Nat) (l : List (SrcFile × FileEnv)),
      (workerFileAux pfx running t idx l).2
        = ((List.enumFrom idx l).takeWhile (fun p => running p.1)).filterMap
            (fun p => match p.2.2 with
              | .ok _ _ => some ⟨p.1 + 1, t,
                  progMsgOf p.2.1.name (fileNewName pfx p.2.1.name)⟩
              | _ => none)
  | _, [] => rfl
  | idx, (f, env) :: rest => by
    cases hr : running idx with
    | false =>
      cases env <;>
        simp [workerFileAux, hr, List.enumFrom_cons, List.takeWhile_cons]
    | true =>
      cases env <;>
        simp [workerFileAux, hr, List.enumFrom_cons, List.takeWhile_cons,
          List.filterMap_cons,
          workerFileAux_snd_takeWhile pfx running t (idx + 1) rest]

lemma workerFileAux_fst_all (pfx : Str) (t : Nat) :
    ∀ (idx : Nat) (l : List (SrcFile × FileEnv)),
      (workerFileAux pfx (fun _ => true) t idx l).1 = l.map (fileOutcomeOf pfx)
  | _, [] => rfl
  | idx, (f, env) :: rest => by
    cases env <;>
      simp [workerFileAux, workerFileAux_fst_all pfx t (idx + 1) rest, fileOutcomeOf]

lemma workerFileAux_current_bounds (pfx : Str) (running : Nat → Bool) (t : Nat) :
    ∀ (idx : Nat) (l : List (SrcFile × FileEnv)),
      ∀ e ∈ (workerFileAux pfx running t idx l).2,
        idx + 1 ≤ e.current ∧ e.current ≤ idx + l.length ∧ e.total = t
  | _, [] => by simp [workerFileAux]
  | idx, (f, env) :: rest => by
    intro e he
    cases hr : running idx with
    | false =>
      rw [show (workerFileAux pfx running t idx ((f, env) :: rest)).2 = [] by
        cases env <;> simp [workerFileAux, hr]] at he
      cases he
    | true =>
      cases env with
      | ok s o =>
        rcases List.mem_cons.1 (by simpa [workerFileAux, hr] using he) with rfl | he'
        · refine ⟨Nat.le_refl _, ?_, rfl⟩
          show idx + 1 ≤ idx + (rest.length + 1)
          omega
        · have := workerFileAux_current_bounds pfx running t (idx + 1) rest e he'
          refine ⟨by omega, ?_, this.2.2⟩
          have h2 := this.2.1
          simp only [List.length_cons]
          omega
      | raise msg =>
        have := workerFileAux_current_bounds pfx running t (idx + 1) rest e
          (by simpa [workerFileAux, hr] using he)
        refine ⟨by omega, ?_, this.2.2⟩
        have h2 := this.2.1
        simp only [List.length_cons]
        omega
      | fail =>
        have := workerFileAux_current_bounds pfx running t (idx + 1) rest e
          (by simpa [workerFileAux, hr] using he)
        refine ⟨by omega, ?_, this.2.2⟩
        have h2 := this.2.1
        simp only [List.length_cons]
        omega

lemma workerFileAux_pairwise (pfx : Str) (running : Nat → Bool) (t : Nat) :
    ∀ (idx : Nat) (l : List (SrcFile × FileEnv)),
      (workerFileAux pfx running t idx l).2.Pairwise
        (fun a b => a.current < b.current)
  | _, [] => by simp [workerFileAux]
  | idx, (f, env) :: rest => by
    have IH := workerFileAux_pairwise pfx running t (idx + 1) rest
    cases hr : running idx with
    | false =>
      rw [show (workerFileAux pfx running t idx ((f, env) :: rest)).2 = [] by
        cases env <;> simp [workerFileAux, hr]]
      exact List.Pairwise.nil
    | true =>
      cases env with
      | raise msg => simpa [workerFileAux, hr] using IH
      | fail => simpa [workerFileAux, hr] using IH
      | ok s o =>
        simp only [workerFileAux, hr, if_true]
        refine List.Pairwise.cons ?_ IH
        intro e he
        have := workerFileAux_current_bounds pfx running t (idx + 1) rest e he
        show idx + 1 < e.current
        omega

lemma resultEvents_progress_map (A : List ProgressEvent) (rest : List Event) :
    resultEvents (A.map Event.progress ++ rest) = resultEvents rest := by
  induction A with
  | nil => rfl
  | cons a as ih =>
    simp only [List.map_cons, List.cons_append, resultEvents, List.filterMap_cons] at ih ⊢
    exact ih

lemma resultEvents_outcome_map (B : List Outcome) (rest : List Event) :
    resultEvents (B.map Event.outcome ++ rest) = B ++ resultEvents rest := by
  induction B with
  | nil => rfl
  | cons b bs ih =>
    simp only [List.map_cons, List.cons_append, resultEvents, List.filterMap_cons] at ih ⊢
    rw [ih]

lemma progressEvents_progress_map (A : List ProgressEvent) (rest : List Event) :
    progressEvents (A.map Event.progress ++ rest) = A ++ progressEvents rest := by
  induction A with
  | nil => rfl
  | cons a as ih =>
    simp only [List.map_cons, List.cons_append, progressEvents, List.filterMap_cons] at ih ⊢
    rw [ih]

lemma progressEvents_outcome_map (B : List Outcome) (rest : List Event) :
    progressEvents (B.map Event.outcome ++ rest) = progressEvents rest := by
  induction B with
  | nil => rfl
  | cons b bs ih =>
    simp only [List.map_cons, List.cons_append, progressEvents, List.filterMap_cons] at ih ⊢
    exact ih

lemma resultEvents_finished : resultEvents [Event.finished] = [] := rfl

lemma progressEvents_finished : progressEvents [Event.finished] = [] := rfl

/-! ## Claim C3 -/

/-- Claim C3 is false as stated: a one-file batch whose only file fails
(`compress_image` returns `False`) is attempted — its error outcome is
recorded — yet no `ProgressEvent` at all is emitted, because the
progress callback is invoked only in the success branch. -/
theorem C3_counterexample :
    (processImages .single ["r".toList]
        [(⟨["r".toList], "a.png".toList⟩, .fail)]).1
      = [.error ("Failed to process a.png".toList)] ∧
    (processImages .single ["r".toList]
        [(⟨["r".toList], "a.png".toList⟩, .fail)]).2 = [] := by
  decide

/-- Claim C3, amended: in every batch run — the folder-mode engine
`process_images` as well as the SingleFile-mode loop of
`ImageWorker.process` — exactly one `ProgressEvent` is emitted per
*successfully processed* file: the file at 0-based index `i` contributes
the event `(i+1, N, original → new)`, and a file whose attempt ends in a
caught failure emits none.  In SingleFile mode the same holds for the
prefix of files the loop actually reaches under the flag schedule
(`takeWhile`), and those events are exactly the `progress` emissions of
the worker trace.  All emitted `current` values are 1-based, strictly
increasing, and bounded by `total = N`. -/
theorem C3_progress_only_on_success (mode : Mode) (d : Path) (pfx : Str)
    (running : Nat → Bool) (files : List (SrcFile × FileEnv)) :
    (processImages mode d files).2
      = (List.enumFrom 0 files).filterMap (fun p =>
          match p.2.2 with
          | .ok _ _ => some ⟨p.1 + 1, files.length,
              progMsgOf p.2.1.name (folderResolve mode d p.2.1).1⟩
          | _ => none) ∧
    (processImages mode d files).2.Pairwise (fun a b => a.current < b.current) ∧
    (∀ e ∈ (processImages mode d files).2,
      1 ≤ e.current ∧ e.current ≤ files.length ∧ e.total = files.length) ∧
    progressEvents (workerTrace .file running pfx d files)
      = (workerFileAux pfx running files.length 0 files).2 ∧
    (workerFileAux pfx running files.length 0 files).2
      = ((List.enumFrom 0 files).takeWhile (fun p => running p.1)).filterMap
          (fun p => match p.2.2 with
            | .ok _ _ => some ⟨p.1 + 1, files.length,
                progMsgOf p.2.1.name (fileNewName pfx p.2.1.name)⟩
            | _ => none) ∧
    (workerFileAux pfx running files.length 0 files).2.Pairwise
      (fun a b => a.current < b.current) ∧
    ∀ e ∈ (workerFileAux pfx running files.length 0 files).2,
      1 ≤ e.current ∧ e.current ≤ files.length ∧ e.total = files.length := by
  refine ⟨processImagesAux_snd mode d files.length 0 files,
    processImagesAux_pairwise mode d files.length 0 files, ?_, ?_,
    workerFileAux_snd_takeWhile pfx running files.length 0 files,
    workerFileAux_pairwise pfx running files.length 0 files, ?_⟩
  · intro e he
    have := processImagesAux_current_bounds mode d files.length 0 files e he
    omega
  · simp only [workerTrace]
    rw [progressEvents_progress_map, progressEvents_outcome_map, progressEvents_finished,
      List.append_nil]
  · intro e he
    have := workerFileAux_current_bounds pfx running files.length 0 files e he
    omega

/-- Witness for `C3_progress_only_on_success`: in a one-file batch whose
file succeeds, the event `(1, 1, "a.png → a.jpg")` is emitted with the
claimed bounds, both by the folder-mode engine and by the
SingleFile-mode loop. -/
theorem C3_witness :
    (1 ≤ (ProgressEvent.mk 1 1 ("a.png → a.jpg".toList)).current ∧
      (ProgressEvent.mk 1 1 ("a.png → a.jpg".toList)).current
        ≤ ([(⟨([] : Path), "a.png".toList⟩, FileEnv.ok 2048 1024)]
            : List (SrcFile × FileEnv)).length ∧
      (ProgressEvent.mk 1 1 ("a.png → a.jpg".toList)).total
        = ([(⟨([] : Path), "a.png".toList⟩, FileEnv.ok 2048 1024)]
            : List (SrcFile × FileEnv)).length) ∧
    (1 ≤ (ProgressEvent.mk 1 1 ("a.png → a.jpg".toList)).current ∧
      (ProgressEvent.mk 1 1 ("a.png → a.jpg".toList)).current
        ≤ ([(⟨([] : Path), "a.png".toList⟩, FileEnv.ok 2048 1024)]
            : List (SrcFile × FileEnv)).length ∧
      (ProgressEvent.mk 1 1 ("a.png → a.jpg".toList)).total
        = ([(⟨([] : Path), "a.png".toList⟩, FileEnv.ok 2048 1024)]
            : List (SrcFile × FileEnv)).length) :=
  ⟨(C3_progress_only_on_success .single [] [] (fun _ => true)
      [(⟨([] : Path), "a.png".toList⟩, FileEnv.ok 2048 1024)]).2.2.1 _ (by decide),
    (C3_progress_only_on_success .single [] [] (fun _ => true)
      [(⟨([] : Path), "a.png".toList⟩, FileEnv.ok 2048 1024)]).2.2.2.2.2.2 _
      (by decide)⟩

/-! ## Claim C7 -/

/-- Claim C7: in both batch loops — the folder-mode engine
`process_images` and the SingleFile-mode loop of `ImageWorker.process` —
each file's outcome is a function of that file alone: the results list
is literally `files.map (outcomeOf …)` (resp.
`files.map (fileOutcomeOf …)` for a full file-mode run), so a raised
per-file exception (unreadable source, failed directory creation, …)
becomes an error outcome carrying `str(e)` in place, every earlier and
later file keeps its own outcome, and one outcome exists per file.  The
run itself is a total function: no exception propagates out of it
(`ImageWorker.process` additionally wraps the whole loop in a
`try/except`). -/
theorem C7_errors_isolated (mode : Mode) (d : Path)
    (files : List (SrcFile × FileEnv)) :
    (processImages mode d files).1 = files.map (outcomeOf mode d) ∧
    (processImages mode d files).1.length = files.length ∧
    (∀ pre f msg post, files = pre ++ (f, FileEnv.raise msg) :: post →
      (processImages mode d files).1
        = pre.map (outcomeOf mode d)
          ++ Outcome.error (errMsgOf f.name msg) :: post.map (outcomeOf mode d)) ∧
    ∀ (pfx : Str),
      (workerFileAux pfx (fun _ => true) files.length 0 files).1
        = files.map (fileOutcomeOf pfx) ∧
      (workerFileAux pfx (fun _ => true) files.length 0 files).1.length
        = files.length ∧
      ∀ pre f msg post, files = pre ++ (f, FileEnv.raise msg) :: post →
        (workerFileAux pfx (fun _ => true) files.length 0 files).1
          = pre.map (fileOutcomeOf pfx)
            ++ Outcome.error (errMsgOf f.name msg)
              :: post.map (fileOutcomeOf pfx) := by
  have h1 : (processImages mode d files).1 = files.map (outcomeOf mode d) :=
    processImagesAux_fst mode d files.length 0 files
  refine ⟨h1, by rw [h1, List.length_map], ?_, ?_⟩
  · intro pre f msg post hfs
    rw [h1, hfs, List.map_append, List.map_cons]
    rfl
  · intro pfx
    have h2 := workerFileAux_fst_all pfx files.length 0 files
    refine ⟨h2, by rw [h2, List.length_map], ?_⟩
    intro pre f msg post hfs
    rw [h2, hfs, List.map_append, List.map_cons]
    rfl

/-- Witness for `C7_errors_isolated`: a first file raising `"boom"`
yields an in-place error outcome and the second file is still mapped to
its own outcome — in a folder-mode run and in a SingleFile-mode run
alike. -/
theorem C7_witness :
    (processImages .single []
        [(⟨([] : Path), "a.png".toList⟩, FileEnv.raise "boom".toList),
          (⟨([] : Path), "b.png".toList⟩, FileEnv.ok 10 5)]).1
      = ([] : List (SrcFile × FileEnv)).map (outcomeOf .single [])
        ++ Outcome.error (errMsgOf "a.png".toList "boom".toList)
          :: [(⟨([] : Path), "b.png".toList⟩, FileEnv.ok 10 5)].map
              (outcomeOf .single []) ∧
    (workerFileAux "p".toList (fun _ => true)
        ([(⟨([] : Path), "a.png".toList⟩, FileEnv.raise "boom".toList),
            (⟨([] : Path), "b.png".toList⟩, FileEnv.ok 10 5)]
          : List (SrcFile × FileEnv)).length 0
        [(⟨([] : Path), "a.png".toList⟩, FileEnv.raise "boom".toList),
          (⟨([] : Path), "b.png".toList⟩, FileEnv.ok 10 5)]).1
      = ([] : List (SrcFile × FileEnv)).map (fileOutcomeOf "p".toList)
        ++ Outcome.error (errMsgOf "a.png".toList "boom".toList)
          :: [(⟨([] : Path), "b.png".toList⟩, FileEnv.ok 10 5)].map
              (fileOutcomeOf "p".toList) :=
  ⟨(C7_errors_isolated .single [] _).2.2.1 [] _ _ _ rfl,
    ((C7_errors_isolated .single [] _).2.2.2 "p".toList).2.2 [] _ _ _ rfl⟩

/-! ## Claim C8 -/

/-- Claim C8: in SingleFile mode the `_is_running` flag is checked before
each file — with the flag cleared from 0-based index `k` on, the
outcomes are exactly those of the first `k` files and files `k..N-1` are
never processed; in the two folder modes the flag is not consulted
between files, so the `result` emissions cover all `N` files no matter
what the flag schedule is. -/
theorem C8_cancellation (pfx : Str) (d : Path)
    (files : List (SrcFile × FileEnv)) (k : Nat) :
    (workerFileAux pfx (fun i => decide (i < k)) files.length 0 files).1
      = (files.take k).map (fileOutcomeOf pfx) ∧
    ∀ (mode : Mode) (running : Nat → Bool), mode ≠ .file →
      resultEvents (workerTrace mode running pfx d files)
        = files.map (outcomeOf mode d) := by
  constructor
  · have h := workerFileAux_cutoff pfx files.length k 0 files
    simpa using h
  · intro mode running hm
    cases mode with
    | file => exact absurd rfl hm
    | multiple =>
      simp only [workerTrace]
      rw [resultEvents_progress_map, resultEvents_outcome_map, resultEvents_finished,
        List.append_nil]
      exact processImagesAux_fst .multiple d files.length 0 files
    | single =>
      simp only [workerTrace]
      rw [resultEvents_progress_map, resultEvents_outcome_map, resultEvents_finished,
        List.append_nil]
      exact processImagesAux_fst .single d files.length 0 files

/-- Witness for `C8_cancellation`: a single-folder run still emits the
outcome of its file even when the flag is already cleared
(`running ≡ false`). -/
theorem C8_witness :
    resultEvents (workerTrace .single (fun _ => false) [] []
        [(⟨([] : Path), "a.png".toList⟩, FileEnv.fail)])
      = [(⟨([] : Path), "a.png".toList⟩, FileEnv.fail)].map (outcomeOf .single []) :=
  (C8_cancellation [] [] _ 0).2 .single _ (by decide)

/-! ## Claim C9 -/

/-- The `current` carried by a `progress` emission, if any. -/
def Event.progressCurrent : Event → Option Nat
  | .progress e => some e.current
  | _ => none

/-- The original filename carried by a successful `result` emission, if
any (read without inspecting the remaining fields). -/
def Event.srcName : Event → Option Str
  | .outcome (.success orig _ _ _ _ _) => some orig
  | _ => none

/-- Claim C9 is false as stated: in a two-file batch the `result` signal
for file 1 (`a.png`) is emitted only at trace position 2, *after* the
progress signal for file 2 at position 1 — i.e. after file 2 has already
been processed — because `ImageWorker.process` emits all outcomes in a
separate loop after the batch completes. -/
theorem C9_counterexample :
    ((workerTrace .file (fun _ => true) [] []
        [(⟨["h".toList], "a.png".toList⟩, .ok 2048 1024),
          (⟨["h".toList], "b.png".toList⟩, .ok 2048 1024)])[1]?).bind
        Event.progressCurrent = some 2 ∧
    ((workerTrace .file (fun _ => true) [] []
        [(⟨["h".toList], "a.png".toList⟩, .ok 2048 1024),
          (⟨["h".toList], "b.png".toList⟩, .ok 2048 1024)])[2]?).bind
        Event.srcName = some "a.png".toList := by
  decide

/-- Claim C9, amended: the per-file `ProcessingOutcome`s are *not*
interleaved with the batch — the worker's whole trace always factors as
all progress emissions, then one `result` emission per recorded outcome
in file order, then `finished`; outcomes are only emitted after the loop
over the files has completed.  (They do form a stream decoupled from the
progress stream.) -/
theorem C9_outcomes_after_loop (mode : Mode) (running : Nat → Bool) (pfx : Str)
    (d : Path) (files : List (SrcFile × FileEnv)) :
    workerTrace mode running pfx d files
      = (progressEvents (workerTrace mode running pfx d files)).map Event.progress
        ++ ((resultEvents (workerTrace mode running pfx d files)).map Event.outcome
          ++ [Event.finished]) := by
  cases mode <;>
    simp only [workerTrace] <;>
    rw [progressEvents_progress_map, progressEvents_outcome_map, progressEvents_finished,
      resultEvents_progress_map, resultEvents_outcome_map, resultEvents_finished,
      List.append_nil, List.append_nil]

/-! ## Claim C10 -/

/-- Claim C10: in the folder modes, once the flag is cleared from 0-based
index `k` on (a stop request observed mid-run), every file is still fully
processed — the `result` emissions cover all `N` files — while the
progress stream is truncated to exactly the events of files whose
1-based index is at most `k`: `_progress_callback` suppresses emission
once `_is_running` is false, and nothing guards the result loop. -/
theorem C10_stop_folder_modes (mode : Mode) (hm : mode ≠ .file) (pfx : Str)
    (d : Path) (files : List (SrcFile × FileEnv)) (k : Nat) :
    resultEvents (workerTrace mode (fun i => decide (i < k)) pfx d files)
      = files.map (outcomeOf mode d) ∧
    progressEvents (workerTrace mode (fun i => decide (i < k)) pfx d files)
      = (processImages mode d files).2.filter (fun e => decide (e.current ≤ k)) := by
  cases mode with
  | file => exact absurd rfl hm
  | multiple =>
    constructor
    · simp only [workerTrace]
      rw [resultEvents_progress_map, resultEvents_outcome_map, resultEvents_finished,
        List.append_nil]
      exact processImagesAux_fst .multiple d files.length 0 files
    · simp only [workerTrace]
      rw [progressEvents_progress_map, progressEvents_outcome_map, progressEvents_finished,
        List.append_nil]
      refine List.filter_congr ?_
      intro e he
      have hb := processImagesAux_current_bounds .multiple d files.length 0 files e he
      exact decide_eq_decide.2 (by omega)
  | single =>
    constructor
    · simp only [workerTrace]
      rw [resultEvents_progress_map, resultEvents_outcome_map, resultEvents_finished,
        List.append_nil]
      exact processImagesAux_fst .single d files.length 0 files
    · simp only [workerTrace]
      rw [progressEvents_progress_map, progressEvents_outcome_map, progressEvents_finished,
        List.append_nil]
      refine List.filter_congr ?_
      intro e he
      have hb := processImagesAux_current_bounds .single d files.length 0 files e he
      exact decide_eq_decide.2 (by omega)

/-- Witness for `C10_stop_folder_modes`: with the flag cleared before any
file (`k = 0`), a one-file multiple-folder run still emits its outcome
and its progress stream equals the (empty) filtered event list. -/
theorem C10_witness :
    resultEvents (workerTrace .multiple (fun i => decide (i < 0)) [] []
        [(⟨([] : Path), "a.png".toList⟩, FileEnv.ok 2048 1024)])
      = [(⟨([] : Path), "a.png".toList⟩, FileEnv.ok 2048 1024)].map
          (outcomeOf .multiple []) ∧
    progressEvents (workerTrace .multiple (fun i => decide (i < 0)) [] []
        [(⟨([] : Path), "a.png".toList⟩, FileEnv.ok 2048 1024)])
      = (processImages .multiple []
          [(⟨([] : Path), "a.png".toList⟩, FileEnv.ok 2048 1024)]).2.filter
          (fun e => decide (e.current ≤ 0)) :=
  C10_stop_folder_modes .multiple (by decide) [] [] _ 0

end Slimora
